import Mathlib

/-!
Verification of the peer-dependency influencer search in
`apps/lockfile-explorer-web/src/containers/LockfileEntryDetailsView/index.tsx`.

The graph of lockfile entries is embedded with entry identities as natural
numbers: the heap of `LockfileEntry` objects becomes a `List LockfileEntry`
and an object reference becomes the index of the referenced entry in that
list.  JavaScript `Set` objects (insertion-ordered, duplicate-free) become
lists maintained by `setAdd`, which appends an element only when it is not
already present.  The `console.error` diagnostic of the source becomes a
`diagnostics` field that records the referrer passed to each emission, and a
ghost `pops` field records each node popped from the work stack so that
"visited at most once" can be stated.
-/

set_option autoImplicit false

namespace LockfileExplorer

/-- Dependency kinds.  Modelled from the spec: the source imports
`IDependencyType` from `parsing/LockfileDependency`, which is not part of the
excerpt; the spec describes the kind as "normal, peer, etc.", and the only
distinction the excerpt makes is peer versus everything else. -/
inductive IDependencyType where
  | REGULAR
  | DEV
  | PEER_DEPENDENCY

deriving instance DecidableEq, Repr for IDependencyType

/-- A dependency edge of a lockfile entry: mirrors the fields of
`LockfileDependency` that the excerpt reads (`name`, `version`, `entryId`,
`dependencyType`, `resolvedEntry`). -/
structure LockfileDependency where
  name : String
  version : String
  entryId : String
  dependencyType : IDependencyType
  resolvedEntry : Option Nat

deriving instance DecidableEq, Repr for LockfileDependency

/-- A lockfile entry: the fields of `LockfileEntry` the search reads.
`referrers` holds the indices of the referring entries (back-edges);
`transitivePeerDependencies` is the set of dependency names the entry
re-exports transitively as peer dependencies. -/
structure LockfileEntry where
  dependencies : List LockfileDependency
  referrers : List Nat
  transitivePeerDependencies : List String

deriving instance DecidableEq, Repr for LockfileEntry

/-- The entry object behind a reference.  In the source every reference held
in `referrers` points at a real `LockfileEntry`; an out-of-range index is
mapped to an inert empty entry so that `getEntry` is total. -/
def emptyEntry : LockfileEntry :=
  { dependencies := [], referrers := [], transitivePeerDependencies := [] }

/-- Dereference an entry id in the heap `g`. -/
def getEntry (g : List LockfileEntry) (i : Nat) : LockfileEntry :=
  (g[i]?).getD emptyEntry

/-- The inner `for (const dependency of referrer.dependencies)` loop of the
source (lines 69-75): it scans for a dependency whose `name` equals the traced
name and breaks at the first hit. -/
def hasDirectDependency (deps : List LockfileDependency) (name : String) : Bool :=
  deps.any (fun d => d.name == name)

/-- JavaScript `Set.add`: append the element unless it is already present
(insertion order is preserved, duplicates are never created). -/
def setAdd (x : Nat) (s : List Nat) : List Nat :=
  if x ∈ s then s else s ++ [x]

/-- The push loop of the source (lines 93-98): for each element of `refs`
(in the source, `currEntry.referrers`) that is not yet visited, push it onto
the stack and mark it visited.  Returns the new stack and visited set.
The head of the stack list is the top (the end of the JavaScript array). -/
def pushUnvisited : List Nat → List Nat → List Nat → List Nat × List Nat
  | [], stack, visited => (stack, visited)
  | r :: rest, stack, visited =>
    if r ∈ visited then pushUnvisited rest stack visited
    else pushUnvisited rest (r :: stack) (setAdd r visited)

/-- State of the influencer search: the heap (never written), the work
stack, the three `Set`s of the source (`determinants`,
`transitiveReferrers`, `visitedNodes`), the record of `console.error`
emissions, and the ghost trace of popped nodes. -/
structure SearchState where
  graph : List LockfileEntry
  stack : List Nat
  determinants : List Nat
  transitiveReferrers : List Nat
  visitedNodes : List Nat
  diagnostics : List Nat
  pops : List Nat

deriving instance DecidableEq, Repr for SearchState

/-- The body of `for (const referrer of currEntry.referrers)` (lines 67-100)
for a single referrer.  If the referrer declares a dependency with the traced
name it is added to `determinants` and nothing else happens.  Otherwise it is
added to `transitiveReferrers` when its `transitivePeerDependencies` set
holds the name and a diagnostic is emitted when it does not; in both of those
cases the inner push loop then runs over `currEntry.referrers` — note that
the source's inner loop (line 93) iterates `currEntry.referrers`, shadowing
the outer `referrer` variable, so it pushes the unvisited referrers of the
popped node, not of the examined referrer. -/
def processReferrer (name : String) (curr : Nat) (st : SearchState) (referrer : Nat) :
    SearchState :=
  let rEntry := getEntry st.graph referrer
  if hasDirectDependency rEntry.dependencies name then
    { st with determinants := setAdd referrer st.determinants }
  else
    let st1 :=
      if name ∈ rEntry.transitivePeerDependencies then
        { st with transitiveReferrers := setAdd referrer st.transitiveReferrers }
      else
        { st with diagnostics := st.diagnostics ++ [referrer] }
    let p := pushUnvisited (getEntry st1.graph curr).referrers st1.stack st1.visitedNodes
    { st1 with stack := p.1, visitedNodes := p.2 }

/-- Processing of one popped node `curr`: fold the referrer body over
`currEntry.referrers`. -/
def processEntry (name : String) (st : SearchState) (curr : Nat) : SearchState :=
  (getEntry st.graph curr).referrers.foldl (processReferrer name curr) st

/-- The `while (stack.length)` loop (lines 64-102), driven by explicit fuel:
pop the top of the stack (recorded in the ghost `pops` trace) and process it.
With fuel at least the measure proved below, the fuel case never fires. -/
def searchLoop (name : String) : Nat → SearchState → SearchState
  | 0, st => st
  | fuel + 1, st =>
    match st.stack with
    | [] => st
    | curr :: rest =>
      searchLoop name fuel
        (processEntry name { st with stack := rest, pops := st.pops ++ [curr] } curr)

/-- The initialisation of lines 59-63: stack holds the selected entry and the
visited set already contains it. -/
def initState (g : List LockfileEntry) (selectedEntry : Nat) : SearchState :=
  { graph := g
    stack := [selectedEntry]
    determinants := []
    transitiveReferrers := []
    visitedNodes := [selectedEntry]
    diagnostics := []
    pops := [] }

/-- The whole influencer search (lines 59-102).  The fuel `2 * g.length + 1`
is an upper bound on the loop measure, as proved below. -/
def calculateInfluencers (g : List LockfileEntry) (name : String) (selectedEntry : Nat) :
    SearchState :=
  searchLoop name (2 * g.length + 1) (initState g selectedEntry)

/-- The `DependencyType` enum of the source (lines 16-19). -/
inductive DependencyType where
  | Determinant
  | TransitiveReferrer

deriving instance DecidableEq, Repr for DependencyType

/-- The `IInfluencerType` record of the source (lines 21-24), with the entry
held by id. -/
structure IInfluencerType where
  entry : Nat
  type : DependencyType

deriving instance DecidableEq, Repr for IInfluencerType

/-- Lines 103-115: the influencer list is the determinants in set order
followed by the transitive referrers in set order. -/
def computeInfluencers (st : SearchState) : List IInfluencerType :=
  st.determinants.map (fun d => { entry := d, type := DependencyType.Determinant }) ++
    st.transitiveReferrers.map
      (fun r => { entry := r, type := DependencyType.TransitiveReferrer })

/-- The component state the `selectResolvedEntry` handler reads and writes:
the `inspectDependency` and `influencers` `useState` cells (lines 31-32). -/
structure ComponentState where
  inspectDependency : Option LockfileDependency
  influencers : List IInfluencerType

deriving instance DecidableEq, Repr for ComponentState

/-- Externally visible actions the handler can dispatch or log (lines
43-47). -/
inductive UiAction where
  | pushToStack (entry : Nat)
  | logNoResolvedEntry

deriving instance DecidableEq, Repr for UiAction

/-- The condition of line 42:
`inspectDependency && inspectDependency.entryId === dependencyToTrace.entryId`. -/
def inspectMatches : Option LockfileDependency → LockfileDependency → Bool
  | some insp, dep => insp.entryId == dep.entryId
  | none, _ => false

/-- The `selectResolvedEntry` handler (lines 40-120), returning the new
component state together with the dispatched actions.  When the traced
dependency is not a peer dependency the handler returns right after storing
`inspectDependency` (lines 52-56) and the influencer search never runs. -/
def selectResolvedEntry (g : List LockfileEntry) (selectedEntry : Option Nat)
    (cs : ComponentState) (dependencyToTrace : LockfileDependency) :
    ComponentState × List UiAction :=
  if inspectMatches cs.inspectDependency dependencyToTrace then
    match dependencyToTrace.resolvedEntry with
    | some e => (cs, [UiAction.pushToStack e])
    | none => (cs, [UiAction.logNoResolvedEntry])
  else
    match selectedEntry with
    | some sel =>
      let cs1 := { cs with inspectDependency := some dependencyToTrace }
      if dependencyToTrace.dependencyType ≠ IDependencyType.PEER_DEPENDENCY then
        (cs1, [])
      else
        ({ cs1 with influencers := computeInfluencers (calculateInfluencers g dependencyToTrace.name sel) },
          [])
    | none => (cs, [])

/-- Well-formed heap: every referrer index stored in an entry points into the
heap.  In the source this holds by construction, since `referrers` holds
object references. -/
abbrev WF (g : List LockfileEntry) : Prop :=
  ∀ en ∈ g, ∀ r ∈ en.referrers, r < g.length

/-- Number of heap indices below `n` that are not yet visited. -/
def cardUnvis (n : Nat) (visited : List Nat) : Nat :=
  ((Finset.range n).filter (fun x => x ∉ visited)).card

/-- Loop measure: every iteration of `searchLoop` strictly decreases it,
because a pop shortens the stack and every push marks a previously
unvisited node as visited. -/
def searchMeasure (st : SearchState) : Nat :=
  st.stack.length + 2 * cardUnvis st.graph.length st.visitedNodes

/-- Loop invariant for the visited-once discipline: the popped nodes together
with the pending stack are duplicate-free, and all of them are visited. -/
def SearchInv (st : SearchState) : Prop :=
  (st.pops ++ st.stack).Nodup ∧ ∀ x ∈ st.pops ++ st.stack, x ∈ st.visitedNodes

/-- Classification invariant: everything in `determinants` declares the
traced name directly, everything in `transitiveReferrers` does not, and both
sets are duplicate-free. -/
def ClassInv (g : List LockfileEntry) (name : String) (st : SearchState) : Prop :=
  (∀ x ∈ st.determinants, hasDirectDependency (getEntry g x).dependencies name = true) ∧
    (∀ x ∈ st.transitiveReferrers,
      hasDirectDependency (getEntry g x).dependencies name = false) ∧
    st.determinants.Nodup ∧ st.transitiveReferrers.Nodup

/-- A plain (non-peer) dependency edge named `n`, used by the concrete
graphs below. -/
def plainDep (n : String) : LockfileDependency :=
  { name := n, version := "1.0.0", entryId := n, dependencyType := IDependencyType.REGULAR,
    resolvedEntry := none }

/-- The worked example of the spec: entry 0 is Root, entry 1 is X (declares
`PeerLib` directly), entry 2 is Y (does not declare it but lists it among its
transitive peer dependencies); X and Y are the referrers of Root. -/
def exampleGraph : List LockfileEntry :=
  [ { dependencies :=
        [{ name := "PeerLib", version := "1.0.0", entryId := "PeerLib@1",
           dependencyType := IDependencyType.PEER_DEPENDENCY, resolvedEntry := none }],
      referrers := [1, 2], transitivePeerDependencies := [] },
    { dependencies := [plainDep "PeerLib"], referrers := [],
      transitivePeerDependencies := [] },
    { dependencies := [], referrers := [], transitivePeerDependencies := ["PeerLib"] } ]

/-- Graph for the push-target refutation: entry 1 (the only referrer of the
selected entry 0) carries `"P"` transitively and has its own referrer,
entry 2. -/
def graphA : List LockfileEntry :=
  [ { dependencies := [], referrers := [1], transitivePeerDependencies := [] },
    { dependencies := [], referrers := [2], transitivePeerDependencies := ["P"] },
    { dependencies := [], referrers := [], transitivePeerDependencies := ["P"] } ]

/-- Graph for the expansion-past-a-determinant refutation: entry 1 declares
`"P"` directly and has its own referrer 3 (which also declares `"P"`);
entry 2 is a transitive referrer sitting next to 1 among the referrers of the
selected entry 0. -/
def graphB : List LockfileEntry :=
  [ { dependencies := [], referrers := [1, 2], transitivePeerDependencies := [] },
    { dependencies := [plainDep "P"], referrers := [3], transitivePeerDependencies := [] },
    { dependencies := [], referrers := [], transitivePeerDependencies := ["P"] },
    { dependencies := [plainDep "P"], referrers := [], transitivePeerDependencies := [] } ]

/-- Graph for the duplicate-diagnostic refutation: entry 2 neither declares
`"P"` nor carries it transitively, and is a referrer of both the selected
entry 0 and of entry 1. -/
def graphC : List LockfileEntry :=
  [ { dependencies := [], referrers := [1, 2], transitivePeerDependencies := [] },
    { dependencies := [], referrers := [2], transitivePeerDependencies := ["P"] },
    { dependencies := [], referrers := [], transitivePeerDependencies := [] } ]

/-- A two-node referrer cycle (0 and 1 refer to each other), used to witness
termination on cyclic graphs. -/
def graphCycle : List LockfileEntry :=
  [ { dependencies := [], referrers := [1], transitivePeerDependencies := ["P"] },
    { dependencies := [], referrers := [0], transitivePeerDependencies := ["P"] } ]

/-- A one-node graph whose single entry has no referrers. -/
def graphNoReferrers : List LockfileEntry :=
  [ { dependencies := [], referrers := [], transitivePeerDependencies := [] } ]

/-! ### Lemmas about `setAdd` and `getEntry` -/

theorem mem_setAdd {x y : Nat} {s : List Nat} : y ∈ setAdd x s ↔ y ∈ s ∨ y = x := by
  unfold setAdd
  by_cases h : x ∈ s
  · rw [if_pos h]
    constructor
    · exact Or.inl
    · rintro (hy | rfl)
      · exact hy
      · exact h
  · rw [if_neg h]
    simp

theorem setAdd_self (x : Nat) (s : List Nat) : x ∈ setAdd x s :=
  mem_setAdd.mpr (Or.inr rfl)

theorem subset_setAdd (x : Nat) (s : List Nat) : s ⊆ setAdd x s :=
  fun _ hy => mem_setAdd.mpr (Or.inl hy)

theorem setAdd_nodup {x : Nat} {s : List Nat} (h : s.Nodup) : (setAdd x s).Nodup := by
  unfold setAdd
  by_cases hx : x ∈ s
  · rw [if_pos hx]
    exact h
  · rw [if_neg hx]
    simp [List.nodup_append, h, hx]

theorem getEntry_referrers_lt {g : List LockfileEntry} (hWF : WF g) (i : Nat) :
    ∀ x ∈ (getEntry g i).referrers, x < g.length := by
  intro x hx
  unfold getEntry at hx
  cases hgi : g[i]? with
  | none =>
    rw [hgi] at hx
    simp [emptyEntry] at hx
  | some en =>
    rw [hgi] at hx
    exact hWF en (List.getElem?_mem hgi) x hx

/-! ### Lemmas about `pushUnvisited` -/

theorem pushUnvisited_subset_stack (refs : List Nat) :
    ∀ stack visited : List Nat, stack ⊆ (pushUnvisited refs stack visited).1 := by
  induction refs with
  | nil =>
    intro stack visited
    simp [pushUnvisited]
  | cons r rest ih =>
    intro stack visited
    by_cases h : r ∈ visited
    · simp only [pushUnvisited, if_pos h]
      exact ih stack visited
    · simp only [pushUnvisited, if_neg h]
      exact fun x hx => ih _ _ (List.mem_cons_of_mem r hx)

theorem pushUnvisited_subset_visited (refs : List Nat) :
    ∀ stack visited : List Nat, visited ⊆ (pushUnvisited refs stack visited).2 := by
  induction refs with
  | nil =>
    intro stack visited
    simp [pushUnvisited]
  | cons r rest ih =>
    intro stack visited
    by_cases h : r ∈ visited
    · simp only [pushUnvisited, if_pos h]
      exact ih stack visited
    · simp only [pushUnvisited, if_neg h]
      exact fun x hx => ih _ _ (subset_setAdd r visited hx)

theorem pushUnvisited_refs_visited (refs : List Nat) :
    ∀ stack visited : List Nat, ∀ x ∈ refs, x ∈ (pushUnvisited refs stack visited).2 := by
  induction refs with
  | nil =>
    intro stack visited x hx
    exact absurd hx (List.not_mem_nil x)
  | cons r rest ih =>
    intro stack visited x hx
    by_cases h : r ∈ visited
    · simp only [pushUnvisited, if_pos h]
      rcases List.mem_cons.mp hx with rfl | hx'
      · exact pushUnvisited_subset_visited rest stack visited h
      · exact ih stack visited x hx'
    · simp only [pushUnvisited, if_neg h]
      rcases List.mem_cons.mp hx with rfl | hx'
      · exact pushUnvisited_subset_visited rest _ _ (setAdd_self x visited)
      · exact ih _ _ x hx'

theorem pushUnvisited_refs_stack (refs : List Nat) :
    ∀ stack visited : List Nat, ∀ x ∈ refs, x ∉ visited →
      x ∈ (pushUnvisited refs stack visited).1 := by
  induction refs with
  | nil =>
    intro stack visited x hx
    exact absurd hx (List.not_mem_nil x)
  | cons r rest ih =>
    intro stack visited x hx hxv
    by_cases hxr : x = r
    · subst hxr
      simp only [pushUnvisited, if_neg hxv]
      exact pushUnvisited_subset_stack rest _ _ (List.mem_cons_self x stack)
    · have hx' : x ∈ rest := by
        rcases List.mem_cons.mp hx with h | h
        · exact absurd h hxr
        · exact h
      by_cases h : r ∈ visited
      · simp only [pushUnvisited, if_pos h]
        exact ih stack visited x hx' hxv
      · simp only [pushUnvisited, if_neg h]
        refine ih _ _ x hx' ?h
        intro hmem
        rcases mem_setAdd.mp hmem with h1 | h1
        · exact hxv h1
        · exact hxr h1

theorem cardUnvis_le (n : Nat) (visited : List Nat) : cardUnvis n visited ≤ n := by
  unfold cardUnvis
  exact le_trans (Finset.card_filter_le _ _) (le_of_eq (Finset.card_range n))

theorem cardUnvis_setAdd {n r : Nat} {visited : List Nat} (h1 : r < n) (h2 : r ∉ visited) :
    cardUnvis n (setAdd r visited) + 1 = cardUnvis n visited := by
  unfold cardUnvis
  have hset : (Finset.range n).filter (fun x => x ∉ setAdd r visited) =
      ((Finset.range n).filter (fun x => x ∉ visited)).erase r := by
    ext x
    simp only [Finset.mem_filter, Finset.mem_erase, Finset.mem_range, mem_setAdd]
    tauto
  rw [hset]
  exact Finset.card_erase_add_one (by simp [Finset.mem_filter, Finset.mem_range, h1, h2])

theorem pushUnvisited_measure (n : Nat) (refs : List Nat) :
    ∀ stack visited : List Nat, (∀ r ∈ refs, r < n) →
      (pushUnvisited refs stack visited).1.length +
          2 * cardUnvis n (pushUnvisited refs stack visited).2 ≤
        stack.length + 2 * cardUnvis n visited := by
  induction refs with
  | nil =>
    intro stack visited _
    simp [pushUnvisited]
  | cons r rest ih =>
    intro stack visited h
    by_cases hv : r ∈ visited
    · simp only [pushUnvisited, if_pos hv]
      exact ih stack visited (fun x hx => h x (List.mem_cons_of_mem r hx))
    · simp only [pushUnvisited, if_neg hv]
      have hr : r < n := h r (List.mem_cons_self r rest)
      have hcard := cardUnvis_setAdd hr hv
      have hrec := ih (r :: stack) (setAdd r visited)
        (fun x hx => h x (List.mem_cons_of_mem r hx))
      rw [List.length_cons] at hrec
      omega

theorem pushUnvisited_inv (pops : List Nat) (refs : List Nat) :
    ∀ stack visited : List Nat,
      (pops ++ stack).Nodup → (∀ x ∈ pops ++ stack, x ∈ visited) →
      (pops ++ (pushUnvisited refs stack visited).1).Nodup ∧
        ∀ x ∈ pops ++ (pushUnvisited refs stack visited).1,
          x ∈ (pushUnvisited refs stack visited).2 := by
  induction refs with
  | nil =>
    intro stack visited h1 h2
    simp only [pushUnvisited]
    exact ⟨h1, h2⟩
  | cons r rest ih =>
    intro stack visited h1 h2
    by_cases hv : r ∈ visited
    · simp only [pushUnvisited, if_pos hv]
      exact ih stack visited h1 h2
    · simp only [pushUnvisited, if_neg hv]
      apply ih (r :: stack) (setAdd r visited)
      · have hr : r ∉ pops ++ stack := fun hmem => hv (h2 r hmem)
        rw [List.nodup_middle]
        exact List.nodup_cons.mpr ⟨hr, h1⟩
      · intro x hx
        rcases List.mem_append.mp hx with hxp | hxs
        · exact subset_setAdd r visited (h2 x (List.mem_append_left _ hxp))
        · rcases List.mem_cons.mp hxs with rfl | hxs'
          · exact setAdd_self x visited
          · exact subset_setAdd r visited (h2 x (List.mem_append_right _ hxs'))

/-! ### Case equations for `processReferrer` -/

theorem processReferrer_of_det {name : String} {st : SearchState} {r : Nat} (curr : Nat)
    (h : hasDirectDependency (getEntry st.graph r).dependencies name = true) :
    processReferrer name curr st r = { st with determinants := setAdd r st.determinants } := by
  simp [processReferrer, h]

theorem processReferrer_of_trans {name : String} {st : SearchState} {r : Nat} (curr : Nat)
    (h1 : hasDirectDependency (getEntry st.graph r).dependencies name = false)
    (h2 : name ∈ (getEntry st.graph r).transitivePeerDependencies) :
    processReferrer name curr st r =
      { st with
          transitiveReferrers := setAdd r st.transitiveReferrers
          stack := (pushUnvisited (getEntry st.graph curr).referrers st.stack st.visitedNodes).1
          visitedNodes :=
            (pushUnvisited (getEntry st.graph curr).referrers st.stack st.visitedNodes).2 } := by
  simp [processReferrer, h1, h2]

theorem processReferrer_of_diag {name : String} {st : SearchState} {r : Nat} (curr : Nat)
    (h1 : hasDirectDependency (getEntry st.graph r).dependencies name = false)
    (h2 : name ∉ (getEntry st.graph r).transitivePeerDependencies) :
    processReferrer name curr st r =
      { st with
          diagnostics := st.diagnostics ++ [r]
          stack := (pushUnvisited (getEntry st.graph curr).referrers st.stack st.visitedNodes).1
          visitedNodes :=
            (pushUnvisited (getEntry st.graph curr).referrers st.stack st.visitedNodes).2 } := by
  simp [processReferrer, h1, h2]

/-! ### Preservation lemmas for a single referrer step -/

theorem processReferrer_graph (name : String) (curr : Nat) (st : SearchState) (r : Nat) :
    (processReferrer name curr st r).graph = st.graph := by
  cases h1 : hasDirectDependency (getEntry st.graph r).dependencies name with
  | true => rw [processReferrer_of_det curr h1]
  | false =>
    by_cases h2 : name ∈ (getEntry st.graph r).transitivePeerDependencies
    · rw [processReferrer_of_trans curr h1 h2]
    · rw [processReferrer_of_diag curr h1 h2]

theorem processReferrer_pops (name : String) (curr : Nat) (st : SearchState) (r : Nat) :
    (processReferrer name curr st r).pops = st.pops := by
  cases h1 : hasDirectDependency (getEntry st.graph r).dependencies name with
  | true => rw [processReferrer_of_det curr h1]
  | false =>
    by_cases h2 : name ∈ (getEntry st.graph r).transitivePeerDependencies
    · rw [processReferrer_of_trans curr h1 h2]
    · rw [processReferrer_of_diag curr h1 h2]

theorem processReferrer_measure {g : List LockfileEntry} (hWF : WF g) {st : SearchState}
    (hg : st.graph = g) (name : String) (curr : Nat) (r : Nat) :
    searchMeasure (processReferrer name curr st r) ≤ searchMeasure st := by
  subst hg
  cases h1 : hasDirectDependency (getEntry st.graph r).dependencies name with
  | true =>
    rw [processReferrer_of_det curr h1]
    exact Nat.le_refl _
  | false =>
    have hpush := pushUnvisited_measure st.graph.length (getEntry st.graph curr).referrers
      st.stack st.visitedNodes (getEntry_referrers_lt hWF curr)
    by_cases h2 : name ∈ (getEntry st.graph r).transitivePeerDependencies
    · rw [processReferrer_of_trans curr h1 h2]
      exact hpush
    · rw [processReferrer_of_diag curr h1 h2]
      exact hpush

theorem processReferrer_searchInv (name : String) (curr : Nat) (st : SearchState) (r : Nat)
    (h : SearchInv st) : SearchInv (processReferrer name curr st r) := by
  obtain ⟨h1, h2⟩ := h
  cases hb : hasDirectDependency (getEntry st.graph r).dependencies name with
  | true =>
    rw [processReferrer_of_det curr hb]
    exact ⟨h1, h2⟩
  | false =>
    have hpush := pushUnvisited_inv st.pops (getEntry st.graph curr).referrers
      st.stack st.visitedNodes h1 h2
    by_cases h3 : name ∈ (getEntry st.graph r).transitivePeerDependencies
    · rw [processReferrer_of_trans curr hb h3]
      exact hpush
    · rw [processReferrer_of_diag curr hb h3]
      exact hpush

theorem processReferrer_classInv {g : List LockfileEntry} {name : String} {st : SearchState}
    (hg : st.graph = g) (curr : Nat) (r : Nat) (h : ClassInv g name st) :
    ClassInv g name (processReferrer name curr st r) := by
  obtain ⟨hd, ht, hnd, hnt⟩ := h
  cases h1 : hasDirectDependency (getEntry st.graph r).dependencies name with
  | true =>
    rw [processReferrer_of_det curr h1]
    refine ⟨?_, ht, setAdd_nodup hnd, hnt⟩
    intro x hx
    rcases mem_setAdd.mp hx with hx' | rfl
    · exact hd x hx'
    · rw [← hg]
      exact h1
  | false =>
    by_cases h2 : name ∈ (getEntry st.graph r).transitivePeerDependencies
    · rw [processReferrer_of_trans curr h1 h2]
      refine ⟨hd, ?_, hnd, setAdd_nodup hnt⟩
      intro x hx
      rcases mem_setAdd.mp hx with hx' | rfl
      · exact ht x hx'
      · rw [← hg]
        exact h1
    · rw [processReferrer_of_diag curr h1 h2]
      exact ⟨hd, ht, hnd, hnt⟩

/-! ### Lemmas about `processEntry` and `searchLoop` -/

theorem foldl_processReferrer_pres {P : SearchState → Prop} {name : String} {curr : Nat}
    (hstep : ∀ st r, P st → P (processReferrer name curr st r)) :
    ∀ (l : List Nat) (st : SearchState), P st → P (l.foldl (processReferrer name curr) st) := by
  intro l
  induction l with
  | nil => intro st h; exact h
  | cons r rest ih => intro st h; exact ih _ (hstep st r h)

theorem processEntry_graph (name : String) (st : SearchState) (curr : Nat) :
    (processEntry name st curr).graph = st.graph := by
  unfold processEntry
  exact foldl_processReferrer_pres
    (fun s r h => (processReferrer_graph name curr s r).trans h)
    (getEntry st.graph curr).referrers st rfl

theorem processEntry_pops (name : String) (st : SearchState) (curr : Nat) :
    (processEntry name st curr).pops = st.pops := by
  unfold processEntry
  exact foldl_processReferrer_pres
    (fun s r h => (processReferrer_pops name curr s r).trans h)
    (getEntry st.graph curr).referrers st rfl

theorem processEntry_measure {g : List LockfileEntry} (hWF : WF g) {st : SearchState}
    (hg : st.graph = g) (name : String) (curr : Nat) :
    searchMeasure (processEntry name st curr) ≤ searchMeasure st := by
  unfold processEntry
  have h := foldl_processReferrer_pres
    (P := fun s => s.graph = g ∧ searchMeasure s ≤ searchMeasure st)
    (fun s r hp =>
      ⟨(processReferrer_graph name curr s r).trans hp.1,
        le_trans (processReferrer_measure hWF hp.1 name curr r) hp.2⟩)
    (getEntry st.graph curr).referrers st ⟨hg, Nat.le_refl _⟩
  exact h.2

theorem processEntry_searchInv (name : String) (st : SearchState) (curr : Nat)
    (h : SearchInv st) : SearchInv (processEntry name st curr) := by
  unfold processEntry
  exact foldl_processReferrer_pres
    (fun s r hp => processReferrer_searchInv name curr s r hp)
    (getEntry st.graph curr).referrers st h

theorem processEntry_classInv {g : List LockfileEntry} {name : String} {st : SearchState}
    (hg : st.graph = g) (curr : Nat) (h : ClassInv g name st) :
    ClassInv g name (processEntry name st curr) := by
  unfold processEntry
  have hp := foldl_processReferrer_pres
    (P := fun s => s.graph = g ∧ ClassInv g name s)
    (fun s r hp =>
      ⟨(processReferrer_graph name curr s r).trans hp.1,
        processReferrer_classInv hp.1 curr r hp.2⟩)
    (getEntry st.graph curr).referrers st ⟨hg, h⟩
  exact hp.2

theorem searchLoop_empty (name : String) (fuel : Nat) (st : SearchState)
    (h : st.stack = []) : searchLoop name fuel st = st := by
  cases fuel with
  | zero => rfl
  | succ n => simp [searchLoop, h]

theorem searchLoop_succ (name : String) (fuel : Nat) (st : SearchState) (curr : Nat)
    (rest : List Nat) (h : st.stack = curr :: rest) :
    searchLoop name (fuel + 1) st =
      searchLoop name fuel
        (processEntry name { st with stack := rest, pops := st.pops ++ [curr] } curr) := by
  simp only [searchLoop, h]

theorem searchLoop_graph (name : String) :
    ∀ (fuel : Nat) (st : SearchState), (searchLoop name fuel st).graph = st.graph := by
  intro fuel
  induction fuel with
  | zero => intro st; rfl
  | succ n ih =>
    intro st
    cases hs : st.stack with
    | nil => rw [searchLoop_empty name _ st hs]
    | cons curr rest =>
      rw [searchLoop_succ name n st curr rest hs, ih, processEntry_graph]

theorem searchLoop_searchInv (name : String) :
    ∀ (fuel : Nat) (st : SearchState), SearchInv st → SearchInv (searchLoop name fuel st) := by
  intro fuel
  induction fuel with
  | zero => intro st h; exact h
  | succ n ih =>
    intro st h
    cases hs : st.stack with
    | nil =>
      rw [searchLoop_empty name _ st hs]
      exact h
    | cons curr rest =>
      rw [searchLoop_succ name n st curr rest hs]
      apply ih
      apply processEntry_searchInv
      obtain ⟨h1, h2⟩ := h
      rw [hs] at h1 h2
      constructor
      · show (st.pops ++ [curr] ++ rest).Nodup
        rw [List.append_assoc]
        exact h1
      · show ∀ x ∈ st.pops ++ [curr] ++ rest, x ∈ st.visitedNodes
        rw [List.append_assoc]
        exact h2

theorem searchLoop_classInv {g : List LockfileEntry} (name : String) :
    ∀ (fuel : Nat) (st : SearchState), st.graph = g → ClassInv g name st →
      ClassInv g name (searchLoop name fuel st) := by
  intro fuel
  induction fuel with
  | zero => intro st _ h; exact h
  | succ n ih =>
    intro st hg h
    cases hs : st.stack with
    | nil =>
      rw [searchLoop_empty name _ st hs]
      exact h
    | cons curr rest =>
      rw [searchLoop_succ name n st curr rest hs]
      have hg' : ({ st with stack := rest, pops := st.pops ++ [curr] } : SearchState).graph = g := hg
      have h' : ClassInv g name ({ st with stack := rest, pops := st.pops ++ [curr] } : SearchState) := h
      apply ih
      · rw [processEntry_graph]
        exact hg
      · exact processEntry_classInv hg' curr h'

theorem searchLoop_empties {g : List LockfileEntry} (hWF : WF g) (name : String) :
    ∀ (fuel : Nat) (st : SearchState), st.graph = g → searchMeasure st ≤ fuel →
      (searchLoop name fuel st).stack = [] := by
  intro fuel
  induction fuel with
  | zero =>
    intro st _ hm
    unfold searchMeasure at hm
    have hlen : st.stack.length = 0 := by omega
    exact List.length_eq_zero.mp hlen
  | succ n ih =>
    intro st hg hm
    cases hs : st.stack with
    | nil =>
      rw [searchLoop_empty name _ st hs]
      exact hs
    | cons curr rest =>
      rw [searchLoop_succ name n st curr rest hs]
      have hg1 : (processEntry name { st with stack := rest, pops := st.pops ++ [curr] } curr).graph = g := by
        rw [processEntry_graph]
        exact hg
      apply ih _ hg1
      have hg' : ({ st with stack := rest, pops := st.pops ++ [curr] } : SearchState).graph = g := hg
      have h1 : searchMeasure (processEntry name { st with stack := rest, pops := st.pops ++ [curr] } curr) ≤
          searchMeasure { st with stack := rest, pops := st.pops ++ [curr] } :=
        processEntry_measure hWF hg' name curr
      have h2 : searchMeasure { st with stack := rest, pops := st.pops ++ [curr] } + 1 =
          searchMeasure st := by
        unfold searchMeasure
        rw [hs]
        simp only [List.length_cons]
        omega
      omega

theorem searchInv_init (g : List LockfileEntry) (e : Nat) : SearchInv (initState g e) := by
  unfold SearchInv initState
  simp

theorem classInv_init (g : List LockfileEntry) (name : String) (e : Nat) :
    ClassInv g name (initState g e) := by
  unfold ClassInv initState
  simp

theorem searchMeasure_init (g : List LockfileEntry) (e : Nat) :
    searchMeasure (initState g e) ≤ 2 * g.length + 1 := by
  have h := cardUnvis_le g.length [e]
  simp only [searchMeasure, initState, List.length_cons, List.length_nil]
  omega

/-! ### Claim theorems -/

/-- C4: on every well-formed finite graph — graphs with cycles in the
referrer relation included — the influencer search terminates with an empty
stack, and the visited-set discipline makes every node enter the work stack,
and hence get popped, at most once: the trace of popped nodes is
duplicate-free. -/
theorem search_terminates {g : List LockfileEntry} (name : String) (e : Nat) (hWF : WF g) :
    (calculateInfluencers g name e).stack = [] ∧
      (calculateInfluencers g name e).pops.Nodup := by
  constructor
  · exact searchLoop_empties hWF name (2 * g.length + 1) (initState g e) rfl
      (searchMeasure_init g e)
  · have hinv := searchLoop_searchInv name (2 * g.length + 1) (initState g e)
      (searchInv_init g e)
    obtain ⟨h1, _⟩ := hinv
    exact List.Nodup.sublist (List.sublist_append_left _ _) h1

/-- Witness for `search_terminates`: the two-node referrer cycle
terminates with an empty stack and each node popped once. -/
theorem search_terminates_witness :
    WF graphCycle ∧
      ((calculateInfluencers graphCycle "P" 0).stack = [] ∧
        (calculateInfluencers graphCycle "P" 0).pops.Nodup) :=
  ⟨by decide, search_terminates "P" 0 (by decide)⟩

/-- C8: the search never mutates the graph: the heap it carries through
every step is returned unchanged, so every entry's dependencies, referrers
and transitive-peer-dependency set are identical before and after the
search; the only other outputs are the result sets and the recorded
diagnostic emissions. -/
theorem search_graph_immutable (g : List LockfileEntry) (name : String) (e : Nat) :
    (calculateInfluencers g name e).graph = g := by
  unfold calculateInfluencers
  rw [searchLoop_graph]
  rfl

/-- C9: the two result partitions are disjoint and duplicate-free: the
determinant and transitive-referrer sets never share an entry — membership
in either is decided by the entry's own dependency list, which never changes
— and neither set holds an entry twice. -/
theorem partitions_disjoint_nodup (g : List LockfileEntry) (name : String) (e : Nat) :
    (calculateInfluencers g name e).determinants.Nodup ∧
      (calculateInfluencers g name e).transitiveReferrers.Nodup ∧
      ∀ x ∈ (calculateInfluencers g name e).determinants,
        x ∉ (calculateInfluencers g name e).transitiveReferrers := by
  have h := searchLoop_classInv name (2 * g.length + 1) (initState g e) rfl
    (classInv_init g name e)
  obtain ⟨hd, ht, hnd, hnt⟩ := h
  refine ⟨hnd, hnt, ?_⟩
  intro x hx hmem
  have h1 := hd x hx
  have h2 := ht x hmem
  rw [h1] at h2
  simp at h2

/-- C5: the spec's worked example: in `exampleGraph`, Root (entry 0) has
referrers X (entry 1, declaring `PeerLib` directly) and Y (entry 2, carrying
`PeerLib` transitively); the search classifies exactly X as Determinant and
exactly Y as TransitiveReferrer, and the influencer list is the determinant
partition followed by the transitive partition. -/
theorem example_partition :
    (calculateInfluencers exampleGraph "PeerLib" 0).determinants = [1] ∧
      (calculateInfluencers exampleGraph "PeerLib" 0).transitiveReferrers = [2] ∧
      computeInfluencers (calculateInfluencers exampleGraph "PeerLib" 0) =
        [{ entry := 1, type := DependencyType.Determinant },
          { entry := 2, type := DependencyType.TransitiveReferrer }] := by
  decide

/-- C6: the influencer search is a total function — it never fails and
always yields the two partitions — and when the selected entry has no
referrers both partitions, and hence the influencer list, are empty. -/
theorem search_total_empty_referrers (g : List LockfileEntry) (name : String) (e : Nat)
    (h : (getEntry g e).referrers = []) :
    (calculateInfluencers g name e).determinants = [] ∧
      (calculateInfluencers g name e).transitiveReferrers = [] ∧
      computeInfluencers (calculateInfluencers g name e) = [] := by
  simp [calculateInfluencers, initState, searchLoop, processEntry, h, searchLoop_empty,
    computeInfluencers]

/-- Witness for `search_total_empty_referrers` at the one-node graph with no
referrers. -/
theorem search_total_empty_referrers_witness :
    (getEntry graphNoReferrers 0).referrers = [] ∧
      ((calculateInfluencers graphNoReferrers "P" 0).determinants = [] ∧
        (calculateInfluencers graphNoReferrers "P" 0).transitiveReferrers = [] ∧
        computeInfluencers (calculateInfluencers graphNoReferrers "P" 0) = []) :=
  ⟨rfl, search_total_empty_referrers graphNoReferrers "P" 0 rfl⟩

/-- C7: when the traced dependency is not a peer dependency the handler
returns right after storing it as the inspected dependency: the result is a
fixed pair in which the graph argument does not occur, so the influencer
computation is skipped entirely and no traversal of the graph happens. -/
theorem nonPeer_short_circuit (g : List LockfileEntry) (sel : Nat) (cs : ComponentState)
    (dep : LockfileDependency)
    (h1 : inspectMatches cs.inspectDependency dep = false)
    (h2 : dep.dependencyType ≠ IDependencyType.PEER_DEPENDENCY) :
    selectResolvedEntry g (some sel) cs dep =
      ({ cs with inspectDependency := some dep }, []) := by
  simp [selectResolvedEntry, h1, h2]

/-- Witness for `nonPeer_short_circuit` at a regular dependency named
`"Q"`. -/
theorem nonPeer_short_circuit_witness :
    inspectMatches (none : Option LockfileDependency) (plainDep "Q") = false ∧
      (plainDep "Q").dependencyType ≠ IDependencyType.PEER_DEPENDENCY ∧
      selectResolvedEntry exampleGraph (some 0)
          { inspectDependency := none, influencers := [] } (plainDep "Q") =
        ({ inspectDependency := some (plainDep "Q"), influencers := [] }, []) :=
  ⟨rfl, by decide,
    nonPeer_short_circuit exampleGraph 0
      { inspectDependency := none, influencers := [] } (plainDep "Q") rfl (by decide)⟩

/-- C10: when a non-peer dependency is selected for inspection the
previously stored influencer list persists unchanged: the early return
happens before the influencers state is reassigned. -/
theorem nonPeer_preserves_influencers (g : List LockfileEntry) (sel : Nat)
    (cs : ComponentState) (dep : LockfileDependency)
    (h1 : inspectMatches cs.inspectDependency dep = false)
    (h2 : dep.dependencyType ≠ IDependencyType.PEER_DEPENDENCY) :
    (selectResolvedEntry g (some sel) cs dep).1.influencers = cs.influencers := by
  simp [selectResolvedEntry, h1, h2]

/-- Witness for `nonPeer_preserves_influencers`: a prior influencer list
survives the selection of the regular dependency `"R"`. -/
theorem nonPeer_preserves_influencers_witness :
    inspectMatches (none : Option LockfileDependency) (plainDep "R") = false ∧
      (plainDep "R").dependencyType ≠ IDependencyType.PEER_DEPENDENCY ∧
      (selectResolvedEntry exampleGraph (some 0)
          { inspectDependency := none,
            influencers := [{ entry := 1, type := DependencyType.Determinant }] }
          (plainDep "R")).1.influencers =
        [{ entry := 1, type := DependencyType.Determinant }] :=
  ⟨rfl, by decide,
    nonPeer_preserves_influencers exampleGraph 0
      { inspectDependency := none,
        influencers := [{ entry := 1, type := DependencyType.Determinant }] }
      (plainDep "R") rfl (by decide)⟩

/-- C1 counterexample: in `graphA` the first loop iteration pops the
selected entry 0 and classifies its referrer 1 as a TransitiveReferrer, but
the not-yet-visited referrer 2 of entry 1 is neither pushed onto the stack
nor visited at that point: the push loop of the source (line 93) iterates
`currEntry.referrers`, shadowing the outer `referrer` variable, so it pushes
the popped node's referrers, not the classified referrer's. -/
theorem transitiveReferrer_not_push_own_referrers :
    (searchLoop "P" 1 (initState graphA 0)).transitiveReferrers = [1] ∧
      (getEntry graphA 1).referrers = [2] ∧
      2 ∉ (searchLoop "P" 1 (initState graphA 0)).stack ∧
      2 ∉ (searchLoop "P" 1 (initState graphA 0)).visitedNodes := by
  decide

/-- C1 amended: when a popped node's referrer does not declare the traced
name but carries it in its transitive-peer-dependency set, it is classified
as a TransitiveReferrer, and the code then pushes every not-yet-visited
referrer of the popped node (not of the classified referrer) onto the stack
and marks it visited — in particular the classified referrer itself, whose
own referrers are therefore examined only when it is popped later. -/
theorem transitiveReferrer_step (name : String) (curr : Nat) (st : SearchState) (r : Nat)
    (h1 : hasDirectDependency (getEntry st.graph r).dependencies name = false)
    (h2 : name ∈ (getEntry st.graph r).transitivePeerDependencies) :
    r ∈ (processReferrer name curr st r).transitiveReferrers ∧
      ∀ x ∈ (getEntry st.graph curr).referrers,
        x ∈ (processReferrer name curr st r).visitedNodes ∧
        (x ∉ st.visitedNodes → x ∈ (processReferrer name curr st r).stack) := by
  rw [processReferrer_of_trans curr h1 h2]
  constructor
  · exact setAdd_self r st.transitiveReferrers
  · intro x hx
    exact ⟨pushUnvisited_refs_visited _ _ _ x hx,
      fun hnx => pushUnvisited_refs_stack _ _ _ x hx hnx⟩

/-- Witness for `transitiveReferrer_step` at the first step of the search on
`graphA`. -/
theorem transitiveReferrer_step_witness :
    hasDirectDependency (getEntry (initState graphA 0).graph 1).dependencies "P" = false ∧
      "P" ∈ (getEntry (initState graphA 0).graph 1).transitivePeerDependencies ∧
      (1 ∈ (processReferrer "P" 0 (initState graphA 0) 1).transitiveReferrers ∧
        ∀ x ∈ (getEntry (initState graphA 0).graph 0).referrers,
          x ∈ (processReferrer "P" 0 (initState graphA 0) 1).visitedNodes ∧
          (x ∉ (initState graphA 0).visitedNodes →
            x ∈ (processReferrer "P" 0 (initState graphA 0) 1).stack)) :=
  ⟨by decide, by decide,
    transitiveReferrer_step "P" 0 (initState graphA 0) 1 (by decide) (by decide)⟩

/-- C2 counterexample: in `graphB` entry 1 declares `"P"` directly (a
Determinant) and entry 3 is reachable only as a referrer of entry 1, yet the
full search classifies 3 as well: the search expanded past the determinant,
because the sibling referrer 2 of the popped node 0 lacked a direct
dependency and the code then pushed every unvisited referrer of node 0,
including the determinant 1. -/
theorem determinant_expanded_past :
    hasDirectDependency (getEntry graphB 1).dependencies "P" = true ∧
      (getEntry graphB 1).referrers = [3] ∧
      (calculateInfluencers graphB "P" 0).determinants = [1, 3] := by
  decide

/-- C2 amended: a referrer that directly declares the traced name is added
to the determinant set — appearing at most once, since the set never takes
duplicates — and its own examination changes nothing else: no push, no
visit.  The search may nevertheless still expand past it when another
referrer of the same popped node lacks a direct dependency, since the code
then pushes every unvisited referrer of the popped node, the determinant
included. -/
theorem determinant_step (name : String) (curr : Nat) (st : SearchState) (r : Nat)
    (h : hasDirectDependency (getEntry st.graph r).dependencies name = true) :
    processReferrer name curr st r = { st with determinants := setAdd r st.determinants } ∧
      r ∈ (processReferrer name curr st r).determinants ∧
      (st.determinants.Nodup → (processReferrer name curr st r).determinants.Nodup) := by
  refine ⟨processReferrer_of_det curr h, ?_, ?_⟩
  · rw [processReferrer_of_det curr h]
    exact setAdd_self r st.determinants
  · intro hn
    rw [processReferrer_of_det curr h]
    exact setAdd_nodup hn

/-- Witness for `determinant_step` at the first step of the search on
`graphB`. -/
theorem determinant_step_witness :
    hasDirectDependency (getEntry (initState graphB 0).graph 1).dependencies "P" = true ∧
      (processReferrer "P" 0 (initState graphB 0) 1 =
          { initState graphB 0 with
              determinants := setAdd 1 (initState graphB 0).determinants } ∧
        1 ∈ (processReferrer "P" 0 (initState graphB 0) 1).determinants ∧
        ((initState graphB 0).determinants.Nodup →
          (processReferrer "P" 0 (initState graphB 0) 1).determinants.Nodup)) :=
  ⟨by decide, determinant_step "P" 0 (initState graphB 0) 1 (by decide)⟩

/-- C3 counterexample: in `graphC` entry 2 neither declares `"P"` nor lists
it among its transitive peer dependencies, and it is a referrer of both
popped nodes 0 and 1: the search emits the diagnostic for entry 2 twice, not
exactly once per node. -/
theorem diagnostic_twice :
    (calculateInfluencers graphC "P" 0).diagnostics = [2, 2] ∧
      ¬ (calculateInfluencers graphC "P" 0).diagnostics.Nodup := by
  decide

/-- C3 amended: when a popped node's referrer neither declares the traced
name nor carries it transitively, a diagnostic for that referrer is emitted
at that examination — hence once per popped node that lists it as a
referrer, which can be more than once per node over the whole search — the
traversal is not aborted (neither partition changes), and the popped node's
not-yet-visited referrers, the offending referrer among them, are still
pushed. -/
theorem diagnostic_step (name : String) (curr : Nat) (st : SearchState) (r : Nat)
    (h1 : hasDirectDependency (getEntry st.graph r).dependencies name = false)
    (h2 : name ∉ (getEntry st.graph r).transitivePeerDependencies) :
    (processReferrer name curr st r).diagnostics = st.diagnostics ++ [r] ∧
      (processReferrer name curr st r).determinants = st.determinants ∧
      (processReferrer name curr st r).transitiveReferrers = st.transitiveReferrers ∧
      ∀ x ∈ (getEntry st.graph curr).referrers, x ∉ st.visitedNodes →
        x ∈ (processReferrer name curr st r).stack := by
  rw [processReferrer_of_diag curr h1 h2]
  exact ⟨rfl, rfl, rfl, fun x hx hnx => pushUnvisited_refs_stack _ _ _ x hx hnx⟩

/-- Witness for `diagnostic_step` at the examination of entry 2 during the
first step of the search on `graphC`. -/
theorem diagnostic_step_witness :
    hasDirectDependency (getEntry (initState graphC 0).graph 2).dependencies "P" = false ∧
      "P" ∉ (getEntry (initState graphC 0).graph 2).transitivePeerDependencies ∧
      ((processReferrer "P" 0 (initState graphC 0) 2).diagnostics =
          (initState graphC 0).diagnostics ++ [2] ∧
        (processReferrer "P" 0 (initState graphC 0) 2).determinants =
          (initState graphC 0).determinants ∧
        (processReferrer "P" 0 (initState graphC 0) 2).transitiveReferrers =
          (initState graphC 0).transitiveReferrers ∧
        ∀ x ∈ (getEntry (initState graphC 0).graph 0).referrers,
          x ∉ (initState graphC 0).visitedNodes →
            x ∈ (processReferrer "P" 0 (initState graphC 0) 2).stack) :=
  ⟨by decide, by decide,
    diagnostic_step "P" 0 (initState graphC 0) 2 (by decide) (by decide)⟩

end LockfileExplorer
